import Mathlib

/-!
Verification of the JIT operator registry (`torch/csrc/jit/operator.cpp`).

The development shallowly embeds the registry's data model and operations:

* `Symbol` is the qualified-name string of a `c10::Symbol` (two symbols are
  equal iff their qualified strings are equal); `Symbol.ns` extracts the
  namespace component before the first `::`.
* `FunctionSchema`, `Argument`, `Operator` mirror the fields the file reads:
  schema name, overload name, argument name/type/kwarg-only flag, return type
  strings, the `is_varret` flag, and the operator's alias-analysis kind.
* `OpRef` pairs an `Operator` with the numeric identity of the `shared_ptr`
  allocated by `OperatorRegistry::registerOperator`; reference equality of
  looked-up operators is equality of `OpRef.id`.
* `OperatorRegistry` carries the four pieces of state of the C++ struct:
  the pending `to_register` queue, the by-symbol index `operators`, the
  canonical-signature index `operators_by_sig` and the pointer-literal cache
  `operators_by_sig_literal`.  The two `std::unordered_map`s are modelled as
  association lists whose key order is first-insertion order (iteration order
  of an `unordered_map` is unspecified; the model fixes it deterministically).
  String-literal addresses (`const char*`) are modelled as `Addr := Nat`
  together with a memory function `mem : Addr → String` giving each address
  its contents.
* The schema parser `parseSchema` is an external collaborator; operations
  that call it take a function `parse : String → FunctionSchema` and report
  how many times it was invoked.

Fatal `AT_ERROR`/`TORCH_CHECK` aborts are modelled as `Except String` values
carrying the diagnostic text.
-/

namespace TorchJit

/-- Address of a C string literal (`const char*`). -/
abbrev Addr := Nat

/-- A `c10::Symbol`, identified by its qualified string (e.g. `aten::add`). -/
abbrev Symbol := String

/-- `Symbol::fromQualString`: interning is modelled by the string itself. -/
def Symbol.fromQualString (s : String) : Symbol := s

/-- Characters of the namespace component: everything before the first `::`. -/
def nsChars : List Char → List Char
  | [] => []
  | [a] => [a]
  | a :: b :: rest =>
      if a = ':' ∧ b = ':' then [] else a :: nsChars (b :: rest)

/-- `Symbol::ns`, as the namespace string of a qualified name
(`Symbol.ns (Symbol.fromQualString s)` is the text before the first `::`). -/
def Symbol.ns (s : Symbol) : String := String.mk (nsChars s.toList)

/-- One schema argument: `name`, printed type (`type()->str()`), and the
keyword-only flag. -/
structure Argument where
  name : String
  typeStr : String
  kwarg_only : Bool
deriving DecidableEq, Repr

/-- The parts of `c10::FunctionSchema` that `operator.cpp` reads: qualified
name, overload name, arguments, printed return types, and `is_varret`. -/
structure FunctionSchema where
  name : String
  overload_name : String
  arguments : List Argument
  returns : List String
  is_varret : Bool
deriving DecidableEq, Repr

/-- The closed set of alias-analysis policies (`AliasAnalysisKind`). -/
inductive AliasAnalysisKind where
  | DEFAULT
  | PURE_FUNCTION
  | FROM_SCHEMA
  | CONSERVATIVE
  | INTERNAL_SPECIAL_CASE
deriving DecidableEq, Repr

/-- An operator descriptor: a schema plus an alias-analysis classification. -/
structure Operator where
  schema : FunctionSchema
  aliasAnalysisKind : AliasAnalysisKind
deriving DecidableEq, Repr

/-- A registered operator: `op` together with the identity `id` of the
`shared_ptr` created at registration time (reference equality is `id`
equality). -/
structure OpRef where
  id : Nat
  op : Operator
deriving DecidableEq, Repr

/-- Comma-separated join, as produced by the `if (i > 0) out << ", "` loops. -/
def joinComma : List String → String
  | [] => ""
  | [x] => x
  | x :: y :: rest => x ++ ", " ++ joinComma (y :: rest)

/-- The argument-list part of `canonicalSchemaString`: the loop over
`schema.arguments()` with its `seen_kwarg_only` flag.  `isFirst` tracks
`i == 0` (no leading `", "`), `seen` tracks `seen_kwarg_only`. -/
def canonicalArgs : List Argument → Bool → Bool → String
  | [], _, _ => ""
  | arg :: rest, isFirst, seen =>
      let sep := if isFirst then "" else ", "
      let star := if arg.kwarg_only ∧ seen = false then "*, " else ""
      let seen1 := if arg.kwarg_only ∧ seen = false then true else seen
      sep ++ star ++ arg.typeStr ++ " " ++ arg.name ++ canonicalArgs rest false seen1

/-- The return part of `canonicalSchemaString`: a single type, a
parenthesized tuple for several, nothing for zero returns. -/
def canonicalReturns : List String → String
  | [] => ""
  | [r] => r
  | r :: s :: rest => "(" ++ joinComma (r :: s :: rest) ++ ")"

/-- `canonicalSchemaString` (operator.cpp:311-342). -/
def canonicalSchemaString (schema : FunctionSchema) : String :=
  schema.name ++ "(" ++ canonicalArgs schema.arguments true false ++ ") -> "
    ++ canonicalReturns schema.returns

/-- The `handled` set of `printerHasSpecialCaseFor` (qualified strings). -/
def printerHandled : List Symbol :=
  ["prim::Constant", "prim::Uninitialized", "prim::fork",
   "prim::ListConstruct", "prim::DictConstruct", "prim::ListUnpack",
   "prim::Print", "prim::PythonOp", "prim::TupleConstruct",
   "prim::TupleIndex", "prim::TupleSlice", "prim::TupleUnpack",
   "prim::CreateObject", "prim::GetAttr", "prim::SetAttr",
   "prim::CallFunction", "prim::isinstance", "prim::unchecked_cast"]

/-- The `unneeded` set of `printerHasSpecialCaseFor`. -/
def printerUnneeded : List Symbol :=
  ["onnx::Reshape", "onnx::Shape", "prim::AutogradZero",
   "prim::AutogradAnyNonZero", "prim::AutogradAdd", "prim::ConstantChunk",
   "prim::DifferentiableGraph", "prim::BroadcastSizes", "prim::ChunkSizes",
   "prim::Drop", "prim::FusedConcat", "prim::FusionGroup", "prim::Load",
   "prim::MMTreeReduce", "prim::MMBatchSide", "prim::Store", "prim::profile"]

/-- The `required_namespaces` set, as namespace strings. -/
def requiredNamespaces : List String := ["prim", "aten", "onnx"]

/-- `printerHasSpecialCaseFor` (operator.cpp:132-197). -/
def printerHasSpecialCaseFor (sym : Symbol) : Bool :=
  printerHandled.contains sym || printerUnneeded.contains sym ||
    !requiredNamespaces.contains (Symbol.ns sym)

/-- The `handled` set of `aliasAnalysisHasSpecialCaseFor`. -/
def aliasHandled : List Symbol :=
  ["prim::If", "prim::Loop", "prim::FusionGroup", "prim::DifferentiableGraph",
   "prim::Constant", "prim::Uninitialized", "prim::DictConstruct",
   "prim::ListConstruct", "prim::TupleConstruct", "prim::AutogradZero",
   "prim::FusedConcat", "prim::GradOf", "prim::MMTreeReduce",
   "prim::MMBatchSide", "prim::BroadcastSizes", "prim::ChunkSizes",
   "prim::Function", "prim::TupleUnpack", "prim::TupleIndex",
   "prim::TupleSlice", "prim::ListUnpack", "prim::PythonOp",
   "prim::ConstantChunk", "prim::BroadcastingChunk", "prim::fork",
   "prim::CreateObject", "prim::AutogradAdd", "prim::GetAttr",
   "prim::SetAttr", "prim::profile", "prim::Print", "prim::CallFunction",
   "prim::CallMethod", "aten::wait", "prim::isinstance",
   "prim::unchecked_cast"]

/-- The `purposefully_not_handled` set of `aliasAnalysisHasSpecialCaseFor`. -/
def aliasPurposefullyNotHandled : List Symbol :=
  ["prim::Load", "prim::Store", "prim::Drop", "onnx::Reshape",
   "onnx::Shape", "prim::AutogradAdd"]

/-- `aliasAnalysisHasSpecialCaseFor` (operator.cpp:201-255). -/
def aliasAnalysisHasSpecialCaseFor (symbol : Symbol) : Bool :=
  aliasHandled.contains symbol || aliasPurposefullyNotHandled.contains symbol

/-- Diagnostic of the first `AT_ERROR` in `registerOperator`. -/
def printerMissingMsg (name : String) : String :=
  "Missing special case in python printer for non-schematized operator "
    ++ name ++ ". File a bug to add a case for this operator.\n"

/-- Diagnostic of the second `AT_ERROR` in `registerOperator`. -/
def aliasMissingMsg (name : String) : String :=
  "Missing special case in alias analysis for non-schematized operator "
    ++ name ++ ". File a bug to add a case for this operator.\n"

/-- Diagnostic of the third `AT_ERROR` in `registerOperator`. -/
def aliasSpecialCasedMsg (name : String) : String :=
  "The operator " ++ name
    ++ " is special cased and cannot use explicit alias analysis."

/-- First-match association lookup (`unordered_map::find`). -/
def assocFind {β : Type} : List (String × β) → String → Option β
  | [], _ => none
  | (k, v) :: rest, a => if a = k then some v else assocFind rest a

/-- Insert-or-overwrite (`map[key] = value`); key order is first-insertion
order. -/
def mapInsert {β : Type} : List (String × β) → String → β → List (String × β)
  | [], a, b => [(a, b)]
  | (k, v) :: rest, a, b =>
      if a = k then (a, b) :: rest else (k, v) :: mapInsert rest a b

/-- `operators[sym].push_back(op)`: append to the symbol's bucket, creating
the bucket at the end of the key list on first use. -/
def bucketAppend {β : Type} :
    List (String × List β) → String → β → List (String × List β)
  | [], a, b => [(a, [b])]
  | (k, v) :: rest, a, b =>
      if a = k then (k, v ++ [b]) :: rest else (k, v) :: bucketAppend rest a b

/-- Numeric-key association lookup, for the pointer-literal cache. -/
def addrFind {β : Type} : List (Addr × β) → Addr → Option β
  | [], _ => none
  | (k, v) :: rest, a => if a = k then some v else addrFind rest a

/-- The state of `struct OperatorRegistry`: the by-symbol index, the pending
queue, the canonical-signature index and the pointer-literal cache.  `nextId`
supplies the identity of the next `shared_ptr` allocation. -/
structure OperatorRegistry where
  nextId : Nat
  operators : List (Symbol × List OpRef)
  to_register : List OpRef
  operators_by_sig : List (String × OpRef)
  operators_by_sig_literal : List (Addr × OpRef)
deriving DecidableEq, Repr

/-- The freshly constructed registry (`getRegistry()`'s initial state). -/
def emptyRegistry : OperatorRegistry := ⟨0, [], [], [], []⟩

/-- `OperatorRegistry::registerOperator`: wrap the operator in a fresh
`shared_ptr` and enqueue it; no parsing or indexing happens here. -/
def OperatorRegistry.registerOperator (st : OperatorRegistry) (op : Operator) :
    OperatorRegistry :=
  { st with
    nextId := st.nextId + 1
    to_register := st.to_register ++ [⟨st.nextId, op⟩] }

/-- One iteration of the flush loop: derive the symbol from the schema name,
append to its bucket, and insert/overwrite the canonical-signature index. -/
def flushStep (acc : List (Symbol × List OpRef) × List (String × OpRef))
    (r : OpRef) : List (Symbol × List OpRef) × List (String × OpRef) :=
  (bucketAppend acc.1 (Symbol.fromQualString r.op.schema.name) r,
   mapInsert acc.2 (canonicalSchemaString r.op.schema) r)

/-- `OperatorRegistry::registerPendingOperators`: drain the pending queue
into the two indices, then clear it. -/
def OperatorRegistry.registerPendingOperators (st : OperatorRegistry) :
    OperatorRegistry :=
  let p := st.to_register.foldl flushStep (st.operators, st.operators_by_sig)
  { st with operators := p.1, operators_by_sig := p.2, to_register := [] }

/-- `OperatorRegistry::getOperators`: flush, then return the symbol's bucket
(or the static empty vector). -/
def OperatorRegistry.getOperators (st : OperatorRegistry) (name : Symbol) :
    List OpRef × OperatorRegistry :=
  let st1 := st.registerPendingOperators
  ((assocFind st1.operators name).getD [], st1)

/-- `OperatorRegistry::getAllOperators`: flush, then concatenate every bucket
in index order. -/
def OperatorRegistry.getAllOperators (st : OperatorRegistry) :
    List OpRef × OperatorRegistry :=
  let st1 := st.registerPendingOperators
  (st1.operators.foldl (fun acc kv => acc ++ kv.2) [], st1)

/-- Diagnostic of the `TORCH_CHECK` in `lookupByLiteral`. -/
def couldNotFindMsg (name : String) : String :=
  "Couldn\x27t find an operator for " ++ name
    ++ ". Do you have to update a set of hardcoded JIT ops (e.g., in torch/csrc/jit/ir.cpp)?"

/-- `OperatorRegistry::lookupByLiteral`.  `parse` is the external
`parseSchema` collaborator and `mem` gives the contents of each literal
address.  Returns the result (or the fatal diagnostic), the updated state,
and the number of times the parser was invoked. -/
def OperatorRegistry.lookupByLiteral (parse : String → FunctionSchema)
    (mem : Addr → String) (st : OperatorRegistry) (name : Addr) :
    Except String OpRef × OperatorRegistry × Nat :=
  let st1 := st.registerPendingOperators
  match addrFind st1.operators_by_sig_literal name with
  | some op => (.ok op, st1, 0)
  | none =>
      match assocFind st1.operators_by_sig
          (canonicalSchemaString (parse (mem name))) with
      | some op =>
          (.ok op,
           { st1 with
             operators_by_sig_literal :=
               st1.operators_by_sig_literal ++ [(name, op)] },
           1)
      | none => (.error (couldNotFindMsg (mem name)), st1, 1)

/-- `registerOperator` (the free function, operator.cpp:257-284): validate
the variadic-return invariants, aborting on violation, then enqueue. -/
def registerOperator (op : Operator) (st : OperatorRegistry) :
    Except String OperatorRegistry :=
  if op.schema.is_varret then
    let s := Symbol.fromQualString op.schema.name
    if !printerHasSpecialCaseFor s then
      .error (printerMissingMsg op.schema.name)
    else if !aliasAnalysisHasSpecialCaseFor s &&
        op.aliasAnalysisKind = AliasAnalysisKind.CONSERVATIVE then
      .error (aliasMissingMsg op.schema.name)
    else if aliasAnalysisHasSpecialCaseFor s &&
        op.aliasAnalysisKind = AliasAnalysisKind.FROM_SCHEMA then
      .error (aliasSpecialCasedMsg op.schema.name)
    else
      .ok (st.registerOperator op)
  else
    .ok (st.registerOperator op)

/-- `findOperatorFor` (operator.cpp:294-301): linear scan of the by-symbol
bucket for the first exact overload-name match. -/
structure OperatorName where
  name : String
  overload_name : String
deriving DecidableEq, Repr

/-- `findOperatorFor`: scan `getOperators(full_name.name)` in order and
return the first operator whose overload name equals the requested one. -/
def findOperatorFor (st : OperatorRegistry) (full_name : OperatorName) :
    Option OpRef × OperatorRegistry :=
  let p := st.getOperators (Symbol.fromQualString full_name.name)
  (p.1.find? (fun op => op.op.schema.overload_name = full_name.overload_name),
   p.2)

/-! ### Canonical-signature formatting: spec-side description -/

/-- One argument entry, `type name`. -/
def argEntry (a : Argument) : String := a.typeStr ++ " " ++ a.name

/-- Plain concatenation of a list of strings. -/
def joinAll : List String → String
  | [] => ""
  | x :: xs => x ++ joinAll xs

/-- The spec's argument list: the `type name` entries in order, with a `*`
marker inserted exactly once, before the first keyword-only argument. -/
def specArgList (l : List Argument) : List String :=
  if (l.dropWhile (fun a => !a.kwarg_only)).isEmpty then l.map argEntry
  else
    (l.takeWhile (fun a => !a.kwarg_only)).map argEntry
      ++ "*" :: (l.dropWhile (fun a => !a.kwarg_only)).map argEntry

/-- Written from the spec's words (§6, canonicalization utility): the schema
name, a parenthesized comma-separated list of `type name` entries with the
`*,` marker before the first keyword-only argument, then `" -> "` followed by
the single return type, a parenthesized comma-separated tuple for several
returns, or nothing for zero returns. -/
def canonicalSchemaStringSpec (schema : FunctionSchema) : String :=
  let ret :=
    if schema.returns.length = 1 then schema.returns.headD ""
    else if 1 < schema.returns.length then
      "(" ++ joinComma schema.returns ++ ")"
    else ""
  schema.name ++ "(" ++ joinComma (specArgList schema.arguments) ++ ") -> "
    ++ ret

theorem joinAll_nil : joinAll [] = "" := rfl

theorem joinAll_cons (x : String) (xs : List String) :
    joinAll (x :: xs) = x ++ joinAll xs := rfl

theorem joinComma_nil : joinComma [] = "" := rfl

theorem joinComma_one (x : String) : joinComma [x] = x := rfl

theorem joinComma_cons2 (x y : String) (rest : List String) :
    joinComma (x :: y :: rest) = x ++ ", " ++ joinComma (y :: rest) := rfl

theorem canonicalArgs_nil (isFirst seen : Bool) :
    canonicalArgs [] isFirst seen = "" := rfl

theorem canonicalArgs_cons (a : Argument) (rest : List Argument)
    (isFirst seen : Bool) :
    canonicalArgs (a :: rest) isFirst seen
      = (if isFirst then "" else ", ")
        ++ (if a.kwarg_only ∧ seen = false then "*, " else "")
        ++ a.typeStr ++ " " ++ a.name
        ++ canonicalArgs rest false
            (if a.kwarg_only ∧ seen = false then true else seen) := rfl

theorem starComma : ("*, " : String) = "*" ++ ", " := rfl

theorem star_split (x : String) : "*, " ++ x = "*" ++ (", " ++ x) := by
  rw [starComma, String.append_assoc]

theorem commaStar : (", *, " : String) = ", *" ++ ", " := rfl

theorem comma_star_split (x : String) : ", *, " ++ x = ", *" ++ (", " ++ x) := by
  rw [commaStar, String.append_assoc]

theorem joinComma_cons (x : String) (xs : List String) :
    joinComma (x :: xs) = x ++ joinAll (xs.map (fun s => ", " ++ s)) := by
  induction xs generalizing x with
  | nil => simp [joinComma_one, joinAll_nil]
  | cons y ys ih =>
      rw [joinComma_cons2, ih y, List.map_cons, joinAll_cons,
        String.append_assoc, String.append_assoc]

theorem canonicalArgs_seen (l : List Argument) :
    canonicalArgs l false true = joinAll (l.map (fun a => ", " ++ argEntry a)) := by
  induction l with
  | nil => simp [canonicalArgs_nil, joinAll_nil]
  | cons a rest ih =>
      rw [canonicalArgs_cons, List.map_cons, joinAll_cons, argEntry]
      simp only [Bool.true_eq_false, and_false, if_false]
      rw [ih]
      simp [String.append_assoc]

theorem specArgList_cons_pos (a : Argument) (rest : List Argument)
    (h : a.kwarg_only = false) :
    specArgList (a :: rest) = argEntry a :: specArgList rest := by
  simp only [specArgList, List.dropWhile, List.takeWhile, h]
  by_cases hp : (rest.dropWhile (fun a => !a.kwarg_only)).isEmpty <;>
    simp [hp]

theorem specArgList_cons_kw (a : Argument) (rest : List Argument)
    (h : a.kwarg_only = true) :
    specArgList (a :: rest) = "*" :: argEntry a :: rest.map argEntry := by
  simp [specArgList, List.dropWhile, List.takeWhile, h]

theorem canonicalArgs_spec (l : List Argument) :
    canonicalArgs l true false = joinComma (specArgList l) ∧
      canonicalArgs l false false
        = joinAll ((specArgList l).map (fun s => ", " ++ s)) := by
  induction l with
  | nil => simp [canonicalArgs_nil, specArgList, joinComma_nil, joinAll_nil]
  | cons a rest ih =>
      cases hk : a.kwarg_only with
      | false =>
          rw [specArgList_cons_pos a rest hk]
          refine ⟨?_, ?_⟩
          · rw [joinComma_cons, canonicalArgs_cons]
            simp only [hk, Bool.false_eq_true, false_and, if_false, if_true,
              argEntry]
            rw [ih.2]
            simp [String.append_assoc]
          · rw [List.map_cons, joinAll_cons, canonicalArgs_cons]
            simp only [hk, Bool.false_eq_true, false_and, if_false, argEntry]
            rw [ih.2]
            simp [String.append_assoc]
      | true =>
          rw [specArgList_cons_kw a rest hk]
          refine ⟨?_, ?_⟩
          · rw [joinComma_cons, canonicalArgs_cons]
            simp only [hk, eq_self_iff_true, true_and, and_true, and_self,
              if_true, argEntry]
            rw [canonicalArgs_seen, List.map_cons, joinAll_cons]
            simp [Function.comp_def, argEntry, String.append_assoc]
            rw [star_split]
          · rw [List.map_cons, joinAll_cons, canonicalArgs_cons]
            simp only [hk, eq_self_iff_true, true_and, and_true, and_self,
              if_true, argEntry]
            rw [canonicalArgs_seen, List.map_cons, joinAll_cons]
            simp [Function.comp_def, argEntry, String.append_assoc]
            rw [comma_star_split]

theorem canonicalReturns_spec (rets : List String) :
    canonicalReturns rets =
      (if rets.length = 1 then rets.headD ""
       else if 1 < rets.length then "(" ++ joinComma rets ++ ")" else "") := by
  match rets with
  | [] => simp [canonicalReturns]
  | [r] => simp [canonicalReturns]
  | r :: s :: rest => simp [canonicalReturns]

/-- The example schema `aten::add(Tensor self, Tensor other) -> Tensor`. -/
def addExampleSchema : FunctionSchema :=
  { name := "aten::add"
    overload_name := ""
    arguments := [⟨"self", "Tensor", false⟩, ⟨"other", "Tensor", false⟩]
    returns := ["Tensor"]
    is_varret := false }

/-- C3 (confirmed): `canonicalSchemaString` is a pure function of the schema
producing the name, the parenthesized `type name` entries with the `*,`
marker before the first keyword-only argument, and `" -> "` followed by the
single return type, a parenthesized tuple of types, or nothing for zero
returns; on the schema `aten::add(Tensor self, Tensor other) -> Tensor` it
yields exactly that text. -/
theorem canonicalSchemaString_matches_spec :
    (∀ schema : FunctionSchema,
      canonicalSchemaString schema = canonicalSchemaStringSpec schema) ∧
    canonicalSchemaString addExampleSchema
      = "aten::add(Tensor self, Tensor other) -> Tensor" := by
  constructor
  · intro schema
    unfold canonicalSchemaString canonicalSchemaStringSpec
    rw [(canonicalArgs_spec schema.arguments).1, canonicalReturns_spec]
  · decide

/-! ### Registration checks (C2, C9) -/

/-- C2 (confirmed): `registerOperator` aborts with a diagnostic exactly when
the operator's schema is variadic-return and (1) its symbol lacks a printer
special case, or (2) its classification is conservative and its symbol lacks
an alias-analysis special case, or (3) its classification is from-schema and
its symbol has an alias-analysis special case; for a non-variadic-return
schema no check runs and registration always enqueues the operator. -/
theorem registerOperator_abort_iff (op : Operator) (st : OperatorRegistry) :
    ((∃ msg, registerOperator op st = Except.error msg) ↔
      (op.schema.is_varret = true ∧
        (printerHasSpecialCaseFor (Symbol.fromQualString op.schema.name)
            = false ∨
          (op.aliasAnalysisKind = AliasAnalysisKind.CONSERVATIVE ∧
            aliasAnalysisHasSpecialCaseFor (Symbol.fromQualString op.schema.name)
              = false) ∨
          (op.aliasAnalysisKind = AliasAnalysisKind.FROM_SCHEMA ∧
            aliasAnalysisHasSpecialCaseFor (Symbol.fromQualString op.schema.name)
              = true))))
      ∧ (op.schema.is_varret = false →
          registerOperator op st = Except.ok (st.registerOperator op)) := by
  unfold registerOperator
  cases hv : op.schema.is_varret <;>
    cases hp : printerHasSpecialCaseFor (Symbol.fromQualString op.schema.name) <;>
      cases ha : aliasAnalysisHasSpecialCaseFor (Symbol.fromQualString op.schema.name) <;>
        cases hk : op.aliasAnalysisKind <;>
          simp [hv, hp, ha, hk]

/-- A variadic-return operator under `aten` with no special case anywhere. -/
def varretMystery : Operator :=
  { schema :=
      { name := "aten::mystery", overload_name := "", arguments := [],
        returns := [], is_varret := true }
    aliasAnalysisKind := AliasAnalysisKind.DEFAULT }

/-- An ordinary schematized operator (the `aten::add` example). -/
def addOperator : Operator :=
  { schema := addExampleSchema, aliasAnalysisKind := AliasAnalysisKind.FROM_SCHEMA }

/-- Witness for C2: `aten::mystery` (variadic-return, no printer special
case) aborts; the schematized `aten::add` is enqueued unchecked. -/
theorem registerOperator_abort_iff_witness :
    (∃ msg, registerOperator varretMystery emptyRegistry = Except.error msg) ∧
      registerOperator addOperator emptyRegistry
        = Except.ok (emptyRegistry.registerOperator addOperator) :=
  ⟨(registerOperator_abort_iff varretMystery emptyRegistry).1.mpr
      ⟨rfl, Or.inl (by decide)⟩,
    (registerOperator_abort_iff addOperator emptyRegistry).2 rfl⟩

/-- C9 (confirmed): a variadic-return operator whose namespace is none of
`prim`, `aten`, `onnx` always passes the printer exemption check — even when
its symbol is in neither statically listed printer set — so any registration
abort for it is one of the two alias-analysis aborts. -/
theorem registerOperator_foreign_namespace_printer_exempt
    (op : Operator) (st : OperatorRegistry)
    (hv : op.schema.is_varret = true)
    (hns : requiredNamespaces.contains
        (Symbol.ns (Symbol.fromQualString op.schema.name)) = false)
    (hh : printerHandled.contains (Symbol.fromQualString op.schema.name) = false)
    (hu : printerUnneeded.contains (Symbol.fromQualString op.schema.name) = false) :
    printerHasSpecialCaseFor (Symbol.fromQualString op.schema.name) = true ∧
      ∀ msg, registerOperator op st = Except.error msg →
        msg = aliasMissingMsg op.schema.name
          ∨ msg = aliasSpecialCasedMsg op.schema.name := by
  have hp : printerHasSpecialCaseFor (Symbol.fromQualString op.schema.name) = true := by
    unfold printerHasSpecialCaseFor
    rw [hh, hu, hns]
    rfl
  refine ⟨hp, ?_⟩
  intro msg h
  unfold registerOperator at h
  cases ha : aliasAnalysisHasSpecialCaseFor (Symbol.fromQualString op.schema.name) <;>
    cases hk : op.aliasAnalysisKind <;>
      simp [hv, hp, ha, hk] at h <;>
        simp [h]

/-- A variadic-return operator in a custom namespace, conservative alias
analysis, listed in no exemption set. -/
def customThing : Operator :=
  { schema :=
      { name := "custom::thing", overload_name := "", arguments := [],
        returns := [], is_varret := true }
    aliasAnalysisKind := AliasAnalysisKind.CONSERVATIVE }

/-- Witness for C9 at `custom::thing`. -/
theorem registerOperator_foreign_namespace_printer_exempt_witness :
    printerHasSpecialCaseFor (Symbol.fromQualString "custom::thing") = true ∧
      ∀ msg, registerOperator customThing emptyRegistry = Except.error msg →
        msg = aliasMissingMsg "custom::thing"
          ∨ msg = aliasSpecialCasedMsg "custom::thing" :=
  registerOperator_foreign_namespace_printer_exempt customThing emptyRegistry
    rfl (by decide) (by decide) (by decide)

/-! ### Index lemmas -/

/-- Symbol of a registered operator, as derived by the flush loop. -/
def symOf (r : OpRef) : Symbol := Symbol.fromQualString r.op.schema.name

/-- Canonical-signature key of a registered operator. -/
def sigOf (r : OpRef) : String := canonicalSchemaString r.op.schema

theorem assocFind_mapInsert {β : Type} (m : List (String × β)) (a k : String)
    (b : β) :
    assocFind (mapInsert m a b) k
      = if k = a then some b else assocFind m k := by
  induction m with
  | nil => simp [mapInsert, assocFind]
  | cons kv rest ih =>
      obtain ⟨c, v⟩ := kv
      by_cases hac : a = c
      · subst hac
        by_cases hk : k = a <;> simp [mapInsert, assocFind, hk]
      · by_cases hk : k = c
        · subst hk
          have hka : ¬ k = a := fun h => hac h.symm
          simp [mapInsert, assocFind, hac, hka]
        · simp [mapInsert, assocFind, hac, hk, ih]

theorem assocFind_bucketAppend {β : Type} (m : List (String × List β))
    (a k : String) (b : β) :
    assocFind (bucketAppend m a b) k
      = if k = a then some ((assocFind m a).getD [] ++ [b])
        else assocFind m k := by
  induction m with
  | nil => simp [bucketAppend, assocFind]
  | cons kv rest ih =>
      obtain ⟨c, v⟩ := kv
      by_cases hac : a = c
      · subst hac
        by_cases hk : k = a <;> simp [bucketAppend, assocFind, hk]
      · by_cases hk : k = c
        · subst hk
          have hka : ¬ k = a := fun h => hac h.symm
          simp [bucketAppend, assocFind, hac, hka]
        · simp [bucketAppend, assocFind, hac, hk, ih]

theorem addrFind_append {β : Type} (l : List (Addr × β)) (a k : Addr) (b : β) :
    addrFind (l ++ [(a, b)]) k
      = match addrFind l k with
        | some v => some v
        | none => if k = a then some b else none := by
  induction l with
  | nil => simp [addrFind]
  | cons kv rest ih =>
      obtain ⟨c, v⟩ := kv
      by_cases hk : k = c <;> simp [addrFind, hk, ih]

/-- The by-symbol bucket contents after one flush fold. -/
theorem flushFold_bucket (pend : List OpRef)
    (acc : List (Symbol × List OpRef) × List (String × OpRef)) (sym : Symbol) :
    (assocFind (pend.foldl flushStep acc).1 sym).getD []
      = (assocFind acc.1 sym).getD []
        ++ pend.filter (fun r => symOf r = sym) := by
  induction pend generalizing acc with
  | nil => simp
  | cons r rest ih =>
      rw [List.foldl_cons, ih]
      by_cases hs : symOf r = sym
      · subst hs
        simp [flushStep, assocFind_bucketAppend, symOf]
      · rw [List.filter_cons_of_neg (by simpa using hs)]
        have : assocFind (flushStep acc r).1 sym = assocFind acc.1 sym := by
          rw [flushStep, assocFind_bucketAppend,
            if_neg (fun h => hs (by rw [symOf]; exact h.symm))]
        rw [this]

/-- The canonical-signature index after one flush fold: the last matching
pending operator wins, falling back to the previous index. -/
theorem or_getLast?_cons {α : Type} (r : α) (l : List α) (x : Option α) :
    (r :: l).getLast?.or x = l.getLast?.or (some r) := by
  induction l with
  | nil => simp
  | cons b bs ih =>
      rw [List.getLast?_cons_cons]
      cases h : (b :: bs).getLast? with
      | none =>
          rw [List.getLast?_eq_none_iff] at h
          cases h
      | some v => simp [h]

theorem flushFold_sig (pend : List OpRef)
    (acc : List (Symbol × List OpRef) × List (String × OpRef)) (k : String) :
    assocFind (pend.foldl flushStep acc).2 k
      = ((pend.filter (fun r => sigOf r = k)).getLast?).or
          (assocFind acc.2 k) := by
  induction pend generalizing acc with
  | nil => simp
  | cons r rest ih =>
      rw [List.foldl_cons, ih]
      by_cases hs : sigOf r = k
      · subst hs
        rw [List.filter_cons_of_pos (by simp), or_getLast?_cons]
        have h2 : assocFind (flushStep acc r).2 (sigOf r) = some r := by
          simp [flushStep, sigOf, assocFind_mapInsert]
        rw [h2]
      · rw [List.filter_cons_of_neg (by simpa using hs)]
        have hk2 : ¬ k = canonicalSchemaString r.op.schema := fun h => hs h.symm
        have h2 : assocFind (flushStep acc r).2 k = assocFind acc.2 k := by
          simp [flushStep, assocFind_mapInsert, hk2]
        rw [h2]

theorem flush_operators_by_sig_literal (st : OperatorRegistry) :
    st.registerPendingOperators.operators_by_sig_literal
      = st.operators_by_sig_literal := rfl

theorem flush_to_register (st : OperatorRegistry) :
    st.registerPendingOperators.to_register = [] := rfl

theorem flush_nextId (st : OperatorRegistry) :
    st.registerPendingOperators.nextId = st.nextId := rfl

theorem flush_of_drained (st : OperatorRegistry) (h : st.to_register = []) :
    st.registerPendingOperators = st := by
  cases st
  subst h
  rfl

theorem flush_flush (st : OperatorRegistry) :
    st.registerPendingOperators.registerPendingOperators
      = st.registerPendingOperators :=
  flush_of_drained _ (flush_to_register st)

/-- The by-symbol bucket of a flushed registry. -/
theorem flush_bucket (st : OperatorRegistry) (sym : Symbol) :
    (assocFind st.registerPendingOperators.operators sym).getD []
      = (assocFind st.operators sym).getD []
        ++ st.to_register.filter (fun r => symOf r = sym) :=
  flushFold_bucket st.to_register (st.operators, st.operators_by_sig) sym

/-- The canonical-signature index of a flushed registry. -/
theorem flush_sig (st : OperatorRegistry) (k : String) :
    assocFind st.registerPendingOperators.operators_by_sig k
      = ((st.to_register.filter (fun r => sigOf r = k)).getLast?).or
          (assocFind st.operators_by_sig k) :=
  flushFold_sig st.to_register (st.operators, st.operators_by_sig) k

/-! ### Literal lookup (C1, C7) -/

/-- C1 (confirmed): on a pointer-cache miss, `lookupByLiteral` parses the
signature text, canonicalizes it, and consults the canonical-signature index;
if an operator is found it is returned after being cached under the text's
address (one parser invocation); if none is found the call fails with the
fatal diagnostic that names the unmatched signature text. -/
theorem lookupByLiteral_miss (parse : String → FunctionSchema)
    (mem : Addr → String) (st : OperatorRegistry) (addr : Addr)
    (hmiss : addrFind st.operators_by_sig_literal addr = none) :
    (∀ op,
      assocFind st.registerPendingOperators.operators_by_sig
          (canonicalSchemaString (parse (mem addr))) = some op →
        OperatorRegistry.lookupByLiteral parse mem st addr
          = (Except.ok op,
             { st.registerPendingOperators with
               operators_by_sig_literal :=
                 st.operators_by_sig_literal ++ [(addr, op)] },
             1)) ∧
    (assocFind st.registerPendingOperators.operators_by_sig
        (canonicalSchemaString (parse (mem addr))) = none →
      OperatorRegistry.lookupByLiteral parse mem st addr
        = (Except.error ("Couldn\x27t find an operator for " ++ mem addr
            ++ ". Do you have to update a set of hardcoded JIT ops (e.g., in torch/csrc/jit/ir.cpp)?"),
           st.registerPendingOperators, 1)) := by
  constructor
  · intro op hfound
    rw [OperatorRegistry.lookupByLiteral]
    rw [show st.registerPendingOperators.operators_by_sig_literal
        = st.operators_by_sig_literal from rfl]
    rw [hmiss, hfound]
  · intro hnone
    rw [OperatorRegistry.lookupByLiteral]
    rw [show st.registerPendingOperators.operators_by_sig_literal
        = st.operators_by_sig_literal from rfl]
    rw [hmiss, hnone, couldNotFindMsg]

/-- The parser used in concrete scenarios: every text parses to the
`aten::add` example schema. -/
def parseAdd : String → FunctionSchema := fun _ => addExampleSchema

/-- The literal memory used in concrete scenarios: every address holds the
canonical `aten::add` signature text. -/
def memAdd : Addr → String :=
  fun _ => "aten::add(Tensor self, Tensor other) -> Tensor"

/-- The registry holding the enqueued `aten::add` operator. -/
def addPending : OperatorRegistry := emptyRegistry.registerOperator addOperator

/-- Witness for C1: looking up the `aten::add` literal at a fresh address in
`addPending` parses once, finds the operator in the canonical index, and
caches it. -/
theorem lookupByLiteral_miss_witness :
    OperatorRegistry.lookupByLiteral parseAdd memAdd addPending 0
      = (Except.ok ⟨0, addOperator⟩,
         { addPending.registerPendingOperators with
           operators_by_sig_literal := [(0, ⟨0, addOperator⟩)] },
         1) :=
  (lookupByLiteral_miss parseAdd memAdd addPending 0 rfl).1 ⟨0, addOperator⟩
    (by decide)

/-- C7 (confirmed): after a successful `lookupByLiteral`, repeating the call
with the identical text address on the resulting state returns the same
(reference-equal) operator with zero parser invocations, leaving the state
unchanged. -/
theorem lookupByLiteral_hit (parse : String → FunctionSchema)
    (mem : Addr → String) (st : OperatorRegistry) (addr : Addr) (op : OpRef)
    (hdrained : st.to_register = [])
    (hhit : addrFind st.operators_by_sig_literal addr = some op) :
    OperatorRegistry.lookupByLiteral parse mem st addr
      = (Except.ok op, st, 0) := by
  simp only [OperatorRegistry.lookupByLiteral, flush_of_drained st hdrained,
    hhit]

theorem lookupByLiteral_cached_second_call (parse : String → FunctionSchema)
    (mem : Addr → String) (st st' : OperatorRegistry) (addr : Addr)
    (op : OpRef) (n : Nat)
    (h : OperatorRegistry.lookupByLiteral parse mem st addr
      = (Except.ok op, st', n)) :
    OperatorRegistry.lookupByLiteral parse mem st' addr
      = (Except.ok op, st', 0) := by
  simp only [OperatorRegistry.lookupByLiteral] at h
  cases e : addrFind st.registerPendingOperators.operators_by_sig_literal addr with
  | some op0 =>
      rw [e] at h
      simp only [Prod.mk.injEq, Except.ok.injEq] at h
      obtain ⟨rfl, rfl, rfl⟩ := h
      exact lookupByLiteral_hit parse mem _ addr op0
        (flush_to_register st) e
  | none =>
      rw [e] at h
      cases f : assocFind st.registerPendingOperators.operators_by_sig
          (canonicalSchemaString (parse (mem addr))) with
      | some op0 =>
          rw [f] at h
          simp only [Prod.mk.injEq, Except.ok.injEq] at h
          obtain ⟨rfl, rfl, rfl⟩ := h
          refine lookupByLiteral_hit parse mem _ addr op0 rfl ?_
          show addrFind (st.registerPendingOperators.operators_by_sig_literal
            ++ [(addr, op0)]) addr = some op0
          rw [addrFind_append, e]
          simp
      | none =>
          rw [f] at h
          simp at h

/-- The flushed registry after the witness lookup of C1. -/
def addFlushed : OperatorRegistry :=
  { nextId := 1
    operators := [("aten::add", [⟨0, addOperator⟩])]
    to_register := []
    operators_by_sig :=
      [("aten::add(Tensor self, Tensor other) -> Tensor", ⟨0, addOperator⟩)]
    operators_by_sig_literal := [(0, ⟨0, addOperator⟩)] }

/-- Witness for C7: repeating the witness lookup of C1 on its resulting
state returns the same operator with zero parser invocations. -/
theorem lookupByLiteral_cached_second_call_witness :
    OperatorRegistry.lookupByLiteral parseAdd memAdd addFlushed 0
      = (Except.ok ⟨0, addOperator⟩, addFlushed, 0) :=
  lookupByLiteral_cached_second_call parseAdd memAdd addPending addFlushed 0
    ⟨0, addOperator⟩ 1 rfl

/-! ### Registration traces (C4, C6) -/

/-- An externally observable event: a call to
`OperatorRegistry::registerOperator`, or any read operation's drain of the
pending queue (`registerPendingOperators`). -/
inductive RegAction where
  | reg (op : Operator)
  | drain
deriving DecidableEq, Repr

/-- Run a trace of registrations and drains. -/
def runActions : List RegAction → OperatorRegistry → OperatorRegistry
  | [], st => st
  | RegAction.reg op :: rest, st => runActions rest (st.registerOperator op)
  | RegAction.drain :: rest, st => runActions rest st.registerPendingOperators

/-- The operators a trace registers, in call order. -/
def registeredOps (acts : List RegAction) : List Operator :=
  acts.filterMap (fun a =>
    match a with
    | RegAction.reg op => some op
    | RegAction.drain => none)

/-- All operators recorded for `sym`, indexed or still pending. -/
def regList (st : OperatorRegistry) (sym : Symbol) : List OpRef :=
  (assocFind st.operators sym).getD []
    ++ st.to_register.filter (fun r => symOf r = sym)

theorem regList_flush (st : OperatorRegistry) (sym : Symbol) :
    regList st.registerPendingOperators sym = regList st sym := by
  rw [regList, regList, flush_bucket, flush_to_register]
  simp

theorem regList_register (st : OperatorRegistry) (op : Operator) (sym : Symbol) :
    regList (st.registerOperator op) sym
      = regList st sym
        ++ (if Symbol.fromQualString op.schema.name = sym
            then [(⟨st.nextId, op⟩ : OpRef)] else []) := by
  rw [regList, regList, OperatorRegistry.registerOperator]
  simp only [List.filter_append, List.append_assoc]
  congr 1
  congr 1
  by_cases hs : Symbol.fromQualString op.schema.name = sym <;>
    simp [symOf, hs]

theorem runActions_regList (acts : List RegAction) (st : OperatorRegistry)
    (sym : Symbol) :
    (regList (runActions acts st) sym).map (fun r => r.op)
      = (regList st sym).map (fun r => r.op)
        ++ (registeredOps acts).filter
            (fun op => Symbol.fromQualString op.schema.name = sym) := by
  induction acts generalizing st with
  | nil => simp [runActions, registeredOps]
  | cons a rest ih =>
      cases a with
      | drain =>
          rw [runActions, ih, regList_flush]
          rfl
      | reg op =>
          rw [runActions, ih, regList_register]
          by_cases hs : Symbol.fromQualString op.schema.name = sym
          · simp [registeredOps, hs]
          · simp [registeredOps, hs]

/-- Shared characterization of `getOperators` over a trace. -/
theorem getOperators_map_filter (acts : List RegAction) (sym : Symbol) :
    (((runActions acts emptyRegistry).getOperators sym).1).map (fun r => r.op)
      = (registeredOps acts).filter
          (fun op => Symbol.fromQualString op.schema.name = sym) := by
  have h0 := runActions_regList acts emptyRegistry sym
  rw [show (regList emptyRegistry sym).map (fun r => r.op) = [] from rfl,
    List.nil_append] at h0
  rw [← h0]
  rw [show ((runActions acts emptyRegistry).getOperators sym).1
      = regList (runActions acts emptyRegistry).registerPendingOperators sym
      from ?eq]
  · rw [regList_flush]
  case eq =>
    rw [regList, flush_to_register]
    simp [OperatorRegistry.getOperators]

/-- C4 (confirmed): after any trace of registrations and drains,
`getOperators` returns exactly the operators registered under the requested
symbol, in registration order, and the empty sequence when none was
registered under it. -/
theorem getOperators_registration_order (acts : List RegAction) (sym : Symbol) :
    (((runActions acts emptyRegistry).getOperators sym).1).map (fun r => r.op)
      = (registeredOps acts).filter
          (fun op => Symbol.fromQualString op.schema.name = sym)
    ∧ ((registeredOps acts).filter
          (fun op => Symbol.fromQualString op.schema.name = sym) = [] →
        ((runActions acts emptyRegistry).getOperators sym).1 = []) := by
  refine ⟨getOperators_map_filter acts sym, fun hempty => ?_⟩
  have h2 := (getOperators_map_filter acts sym).trans hempty
  exact List.map_eq_nil_iff.mp h2

/-- A second overload of `aten::add`, as in the spec's example. -/
def addScalarOperator : Operator :=
  { schema :=
      { name := "aten::add"
        overload_name := "Scalar"
        arguments := [⟨"self", "Tensor", false⟩, ⟨"other", "Scalar", false⟩]
        returns := ["Tensor"]
        is_varret := false }
    aliasAnalysisKind := AliasAnalysisKind.FROM_SCHEMA }

/-- The two-overload example trace, with a drain between registrations. -/
def addTrace : List RegAction :=
  [RegAction.reg addOperator, RegAction.drain, RegAction.reg addScalarOperator]

/-- Witness for C4: in the example trace no operator is registered under
`aten::sub`, and `getOperators` returns the empty sequence for it. -/
theorem getOperators_registration_order_witness :
    ((runActions addTrace emptyRegistry).getOperators "aten::sub").1 = [] :=
  (getOperators_registration_order addTrace "aten::sub").2 (by decide)

/-- C6 (confirmed): `findOperatorFor` scans the symbol's bucket linearly in
registration order and returns the first operator whose overload name
exactly matches, or nothing when no registered operator under that name
matches. -/
theorem findOperatorFor_first_match (acts : List RegAction)
    (full_name : OperatorName) :
    ((findOperatorFor (runActions acts emptyRegistry) full_name).1).map
        (fun r => r.op)
      = ((registeredOps acts).filter
          (fun op => Symbol.fromQualString op.schema.name
            = Symbol.fromQualString full_name.name)).find?
          (fun op => op.schema.overload_name = full_name.overload_name) := by
  rw [show (findOperatorFor (runActions acts emptyRegistry) full_name).1
      = (((runActions acts emptyRegistry).getOperators
          (Symbol.fromQualString full_name.name)).1).find?
          (fun r => r.op.schema.overload_name = full_name.overload_name)
      from rfl]
  rw [← getOperators_map_filter acts (Symbol.fromQualString full_name.name)]
  rw [List.find?_map]
  rfl

/-! ### Duplicate canonical signatures (C10) -/

/-- C10 (confirmed): registering two operators whose schemas canonicalize
identically (under the same name) keeps both in the by-symbol bucket in
registration order after the flush, while the canonical-signature index maps
the shared string to the later-flushed operator, so a fresh literal lookup
of that signature returns the later-registered operator. -/
theorem duplicate_signature_last_wins (st : OperatorRegistry)
    (op1 op2 : Operator)
    (hdrained : st.to_register = [])
    (hname : op1.schema.name = op2.schema.name)
    (hsig : canonicalSchemaString op1.schema = canonicalSchemaString op2.schema) :
    ((assocFind
        ((st.registerOperator op1).registerOperator
          op2).registerPendingOperators.operators
        (Symbol.fromQualString op2.schema.name)).getD []
      = (assocFind st.operators (Symbol.fromQualString op2.schema.name)).getD []
          ++ [⟨st.nextId, op1⟩, ⟨st.nextId + 1, op2⟩])
    ∧ assocFind
        ((st.registerOperator op1).registerOperator
          op2).registerPendingOperators.operators_by_sig
        (canonicalSchemaString op2.schema) = some ⟨st.nextId + 1, op2⟩
    ∧ ∀ (parse : String → FunctionSchema) (mem : Addr → String) (addr : Addr),
        addrFind st.operators_by_sig_literal addr = none →
        canonicalSchemaString (parse (mem addr))
          = canonicalSchemaString op2.schema →
        (OperatorRegistry.lookupByLiteral parse mem
            ((st.registerOperator op1).registerOperator op2) addr).1
          = Except.ok ⟨st.nextId + 1, op2⟩ := by
  have hpend : ((st.registerOperator op1).registerOperator op2).to_register
      = [⟨st.nextId, op1⟩, ⟨st.nextId + 1, op2⟩] := by
    simp [OperatorRegistry.registerOperator, hdrained]
  have hops : ((st.registerOperator op1).registerOperator op2).operators
      = st.operators := rfl
  have hsigidx :
      ((st.registerOperator op1).registerOperator op2).operators_by_sig
        = st.operators_by_sig := rfl
  have hb :
      (assocFind
        ((st.registerOperator op1).registerOperator
          op2).registerPendingOperators.operators
        (Symbol.fromQualString op2.schema.name)).getD []
      = (assocFind st.operators (Symbol.fromQualString op2.schema.name)).getD []
          ++ [⟨st.nextId, op1⟩, ⟨st.nextId + 1, op2⟩] := by
    rw [flush_bucket, hpend, hops]
    simp [symOf, Symbol.fromQualString, hname]
  have hs :
      assocFind
        ((st.registerOperator op1).registerOperator
          op2).registerPendingOperators.operators_by_sig
        (canonicalSchemaString op2.schema) = some ⟨st.nextId + 1, op2⟩ := by
    rw [flush_sig, hpend, hsigidx]
    simp [sigOf, hsig]
  refine ⟨hb, hs, ?_⟩
  intro parse mem addr hm hk
  simp only [OperatorRegistry.lookupByLiteral]
  rw [show ((st.registerOperator op1).registerOperator
      op2).registerPendingOperators.operators_by_sig_literal
      = st.operators_by_sig_literal from rfl]
  rw [hm, hk, hs]

/-- The `aten::add` schema registered a second time with another
alias-analysis kind: same canonical string, distinct registration. -/
def addOperator2 : Operator :=
  { schema := addExampleSchema
    aliasAnalysisKind := AliasAnalysisKind.PURE_FUNCTION }

/-- Witness for C10: registering `aten::add` twice, the canonical index maps
the shared string to the second registration and a fresh literal lookup
returns it. -/
theorem duplicate_signature_last_wins_witness :
    assocFind
        ((emptyRegistry.registerOperator addOperator).registerOperator
          addOperator2).registerPendingOperators.operators_by_sig
        (canonicalSchemaString addOperator2.schema) = some ⟨1, addOperator2⟩
    ∧ (OperatorRegistry.lookupByLiteral parseAdd memAdd
        ((emptyRegistry.registerOperator addOperator).registerOperator
          addOperator2) 0).1
      = Except.ok ⟨1, addOperator2⟩ :=
  ⟨(duplicate_signature_last_wins emptyRegistry addOperator addOperator2
      rfl rfl rfl).2.1,
   (duplicate_signature_last_wins emptyRegistry addOperator addOperator2
      rfl rfl rfl).2.2 parseAdd memAdd 0 rfl rfl⟩

/-! ### Fuzzy suggestion search (C5) -/

/-- One dynamic-programming row step of the Levenshtein distance: given the
previous row suffix and the cell to the left, produce the new row suffix. -/
def levRow (x : Char) : List Char → List Nat → Nat → List Nat
  | y :: ys, p0 :: p1 :: prest, left =>
      let cell := min (min (p1 + 1) (left + 1)) (p0 + (if x = y then 0 else 1))
      cell :: levRow x ys (p1 :: prest) cell
  | _, _, _ => []

/-- Standard Levenshtein distance by dynamic programming. -/
def levenshtein (xs ys : List Char) : Nat :=
  (xs.foldl
    (fun row x =>
      match row with
      | [] => []
      | r0 :: _ => (r0 + 1) :: levRow x ys row (r0 + 1))
    (List.range (ys.length + 1))).getLastD 0

/-- Modelled from the spec: `script::ComputeEditDistance`
(`torch/csrc/jit/script/edit_distance.h`) is repository code that is not
part of the excerpt; per the spec it is a pure bounded edit-distance
function taking the cap as a pruning bound.  The model computes the
standard Levenshtein distance over the two strings and reports any value
beyond the cap as `maxDist + 1` (exceeds-cap). -/
def ComputeEditDistance (x y : String) (maxDist : Nat) : Nat :=
  let d := levenshtein x.toList y.toList
  if d > maxDist then maxDist + 1 else d

/-- An entry of the `rankings` priority queue: edit distance and symbol. -/
abbrev RankEntry := Nat × Symbol

/-- Array read with the C++ out-of-range behaviour irrelevant (never hit). -/
def hGet (a : List RankEntry) (i : Nat) : RankEntry := a.getD i (0, "")

/-- Swap two positions of the heap array. -/
def hSwap (a : List RankEntry) (i j : Nat) : List RankEntry :=
  (a.set i (hGet a j)).set j (hGet a i)

/-- Sift-up of the binary heap behind `std::priority_queue::push`, for the
comparator `lhs.first > rhs.first` (a min-heap on the distance). -/
def siftUpGo : Nat → List RankEntry → Nat → List RankEntry
  | 0, a, _ => a
  | fuel + 1, a, i =>
      if i = 0 then a
      else
        if (hGet a i).1 < (hGet a ((i - 1) / 2)).1 then
          siftUpGo fuel (hSwap a ((i - 1) / 2) i) ((i - 1) / 2)
        else a

/-- `std::priority_queue::push`: append, then sift up from the last slot. -/
def heapPush (a : List RankEntry) (v : RankEntry) : List RankEntry :=
  siftUpGo (a.length + 1) (a ++ [v]) a.length

/-!
The `rankings` priority queue is a `std::priority_queue`, i.e. a binary
heap over an array.  The C++ standard fixes only the heap property (each
pop yields an entry of minimal distance); it does not specify the relative
order in which entries of equal distance are popped, and different standard
libraries differ there.  The model below uses the classic array-heap sift
procedures as one conforming implementation.  Every theorem proved about
the search depends only on the heap property — never on the model's
particular order among equal-distance entries.
-/

/-- The child position the sift-down step moves toward: the right child when
it exists and has strictly smaller distance, the left child otherwise. -/
def childSel (a : List RankEntry) (i : Nat) : Nat :=
  if 2 * i + 2 < a.length ∧ (hGet a (2 * i + 2)).1 < (hGet a (2 * i + 1)).1
  then 2 * i + 2 else 2 * i + 1

/-- Sift-down of the binary heap behind `std::priority_queue::pop`: move to
the smaller-distance child while it beats the current entry. -/
def siftDownGo : Nat → List RankEntry → Nat → List RankEntry
  | 0, a, _ => a
  | fuel + 1, a, i =>
      if 2 * i + 1 < a.length then
        if (hGet a (childSel a i)).1 < (hGet a i).1 then
          siftDownGo fuel (hSwap a i (childSel a i)) (childSel a i)
        else a
      else a

/-- `top()` followed by `pop()`: move the last entry to the root, shrink,
and sift down.  The resulting order among equal-distance entries is a
determinization of behaviour the C++ standard leaves unspecified; no
theorem below relies on it. -/
def heapPop (a : List RankEntry) : Option (RankEntry × List RankEntry) :=
  if a.length = 0 then none
  else
    some (hGet a 0,
      siftDownGo a.length ((a.set 0 (hGet a (a.length - 1))).take (a.length - 1)) 0)

/-- The `while (!rankings.empty())` drain loop, fueled by the heap size. -/
def heapDrainGo : Nat → List RankEntry → List RankEntry
  | 0, _ => []
  | fuel + 1, a =>
      match heapPop a with
      | none => []
      | some (x, rest) => x :: heapDrainGo fuel rest

/-- Pop all entries of the rankings heap in priority order. -/
def heapDrain (a : List RankEntry) : List RankEntry := heapDrainGo a.length a

/-- `MAX_EDIT_DIST` (operator.cpp:99). -/
def MAX_EDIT_DIST : Nat := 2

/-- `OperatorRegistry::findSimilarOperators` (operator.cpp:88-113): flush,
scan the by-symbol index, keep symbols within the edit-distance cap in a
priority queue ordered by distance, and drain it. -/
def OperatorRegistry.findSimilarOperators (st : OperatorRegistry)
    (input_op : Symbol) : List Symbol × OperatorRegistry :=
  let st1 := st.registerPendingOperators
  let rankings := st1.operators.foldl
    (fun h kv =>
      if ComputeEditDistance input_op kv.1 MAX_EDIT_DIST ≤ MAX_EDIT_DIST then
        heapPush h (ComputeEditDistance input_op kv.1 MAX_EDIT_DIST, kv.1)
      else h)
    []
  ((heapDrain rankings).map (fun e => e.2), st1)

/-! ### Heap correctness -/

theorem hGet_eq (a : List RankEntry) (i : Nat) (h : i < a.length) :
    hGet a i = a[i] := by
  rw [hGet, List.getD_eq_getElem?_getD, List.getElem?_eq_getElem h]
  rfl

theorem hGet_mem (a : List RankEntry) (i : Nat) (h : i < a.length) :
    hGet a i ∈ a := by
  rw [hGet_eq a i h]
  exact List.getElem_mem h

theorem hSwap_length (a : List RankEntry) (i j : Nat) :
    (hSwap a i j).length = a.length := by
  simp [hSwap]

theorem hGet_hSwap_i (a : List RankEntry) (i j : Nat) (hi : i < a.length)
    (hne : j ≠ i) : hGet (hSwap a i j) i = hGet a j := by
  rw [hGet, hSwap, List.getD_eq_getElem?_getD, List.getElem?_set_ne hne,
    List.getElem?_set_self]
  · rfl
  · exact hi

theorem hGet_hSwap_j (a : List RankEntry) (i j : Nat) (hj : j < a.length) :
    hGet (hSwap a i j) j = hGet a i := by
  rw [hGet, hSwap, List.getD_eq_getElem?_getD, List.getElem?_set_self]
  · rfl
  · simpa using hj

theorem hGet_hSwap_other (a : List RankEntry) (i j k : Nat) (hki : k ≠ i)
    (hkj : k ≠ j) : hGet (hSwap a i j) k = hGet a k := by
  rw [hGet, hGet, hSwap, List.getD_eq_getElem?_getD,
    List.getElem?_set_ne (fun h => hkj h.symm),
    List.getElem?_set_ne (fun h => hki h.symm),
    List.getD_eq_getElem?_getD]

theorem mem_hSwap (a : List RankEntry) (i j : Nat) (x : RankEntry)
    (hi : i < a.length) (hj : j < a.length) (hx : x ∈ hSwap a i j) :
    x ∈ a := by
  rcases List.mem_or_eq_of_mem_set hx with h1 | rfl
  · rcases List.mem_or_eq_of_mem_set h1 with h2 | rfl
    · exact h2
    · exact hGet_mem a j hj
  · exact hGet_mem a i hi

theorem siftUpGo_length (fuel : Nat) :
    ∀ a i, (siftUpGo fuel a i).length = a.length := by
  induction fuel with
  | zero => intro a i; rfl
  | succ f ih =>
      intro a i
      rw [siftUpGo]
      split
      · rfl
      · split
        · rw [ih, hSwap_length]
        · rfl

theorem childSel_lt (a : List RankEntry) (i : Nat) (hl : 2 * i + 1 < a.length) :
    childSel a i < a.length := by
  rw [childSel]
  split
  · omega
  · exact hl

theorem childSel_parent (a : List RankEntry) (i : Nat) :
    (childSel a i - 1) / 2 = i := by
  rw [childSel]
  split <;> omega

theorem childSel_gt (a : List RankEntry) (i : Nat) : i < childSel a i := by
  rw [childSel]
  split <;> omega

theorem childSel_le_left (a : List RankEntry) (i : Nat) :
    (hGet a (childSel a i)).1 ≤ (hGet a (2 * i + 1)).1 := by
  rw [childSel]
  split
  · next h => exact Nat.le_of_lt h.2
  · exact le_refl _

theorem childSel_le_right (a : List RankEntry) (i : Nat)
    (h2 : 2 * i + 2 < a.length) :
    (hGet a (childSel a i)).1 ≤ (hGet a (2 * i + 2)).1 := by
  rw [childSel]
  split
  · exact le_refl _
  · next h =>
      have := not_and.mp h h2
      omega

theorem childSel_cases (a : List RankEntry) (i : Nat) :
    childSel a i = 2 * i + 1 ∨ childSel a i = 2 * i + 2 := by
  rw [childSel]
  split
  · exact Or.inr rfl
  · exact Or.inl rfl

theorem siftDownGo_length (fuel : Nat) :
    ∀ a i, (siftDownGo fuel a i).length = a.length := by
  induction fuel with
  | zero => intro a i; rfl
  | succ f ih =>
      intro a i
      rw [siftDownGo]
      split
      · split
        · rw [ih, hSwap_length]
        · rfl
      · rfl

theorem siftUpGo_mem (fuel : Nat) :
    ∀ a i x, i < a.length → x ∈ siftUpGo fuel a i → x ∈ a := by
  induction fuel with
  | zero => intro a i x _ hx; exact hx
  | succ f ih =>
      intro a i x hi hx
      rw [siftUpGo] at hx
      by_cases hi0 : i = 0
      · rw [if_pos hi0] at hx; exact hx
      · rw [if_neg hi0] at hx
        by_cases hlt : (hGet a i).1 < (hGet a ((i - 1) / 2)).1
        · rw [if_pos hlt] at hx
          have hp : (i - 1) / 2 < a.length := by
            have : (i - 1) / 2 < i := by omega
            omega
          have := ih (hSwap a ((i - 1) / 2) i) ((i - 1) / 2) x
            (by rw [hSwap_length]; exact hp) hx
          exact mem_hSwap a ((i - 1) / 2) i x hp hi this
        · rw [if_neg hlt] at hx; exact hx

theorem siftDownGo_mem (fuel : Nat) :
    ∀ a i x, x ∈ siftDownGo fuel a i → x ∈ a := by
  induction fuel with
  | zero => intro a i x hx; exact hx
  | succ f ih =>
      intro a i x hx
      rw [siftDownGo] at hx
      by_cases hl : 2 * i + 1 < a.length
      · rw [if_pos hl] at hx
        have hcb : childSel a i < a.length := childSel_lt a i hl
        have hib : i < a.length := by omega
        by_cases hlt : (hGet a (childSel a i)).1 < (hGet a i).1
        · rw [if_pos hlt] at hx
          exact mem_hSwap a i (childSel a i) x hib hcb
            (ih (hSwap a i (childSel a i)) (childSel a i) x hx)
        · rw [if_neg hlt] at hx; exact hx
      · rw [if_neg hl] at hx; exact hx

theorem heapPush_length (a : List RankEntry) (v : RankEntry) :
    (heapPush a v).length = a.length + 1 := by
  rw [heapPush, siftUpGo_length]
  simp

theorem heapPush_mem (a : List RankEntry) (v x : RankEntry)
    (hx : x ∈ heapPush a v) : x ∈ a ∨ x = v := by
  have h := siftUpGo_mem (a.length + 1) (a ++ [v]) a.length x
    (by simp) hx
  simpa using h

theorem heapPop_mem (a : List RankEntry) (x : RankEntry)
    (rest : List RankEntry) (hp : heapPop a = some (x, rest)) :
    x ∈ a ∧ ∀ y ∈ rest, y ∈ a := by
  rw [heapPop] at hp
  by_cases h0 : a.length = 0
  · rw [if_pos h0] at hp; cases hp
  · rw [if_neg h0] at hp
    have hlen : 0 < a.length := Nat.pos_of_ne_zero h0
    injection hp with hp1
    injection hp1 with hx hrest
    constructor
    · rw [← hx]; exact hGet_mem a 0 hlen
    · intro y hy
      rw [← hrest] at hy
      have h2 := siftDownGo_mem a.length _ 0 y hy
      have h3 := List.mem_of_mem_take h2
      rcases List.mem_or_eq_of_mem_set h3 with h4 | rfl
      · exact h4
      · exact hGet_mem a (a.length - 1) (by omega)

theorem heapPop_length (a : List RankEntry) (x : RankEntry)
    (rest : List RankEntry) (hp : heapPop a = some (x, rest)) :
    rest.length = a.length - 1 := by
  rw [heapPop] at hp
  by_cases h0 : a.length = 0
  · rw [if_pos h0] at hp; cases hp
  · rw [if_neg h0] at hp
    injection hp with hp1
    injection hp1 with hx hrest
    rw [← hrest, siftDownGo_length, List.length_take, List.length_set]
    omega

/-- The min-heap property (on distances) of the rankings queue. -/
def isHeap (a : List RankEntry) : Prop :=
  ∀ i, i < a.length → 0 < i → (hGet a ((i - 1) / 2)).1 ≤ (hGet a i).1

theorem root_min_idx (a : List RankEntry) (h : isHeap a) :
    ∀ i, i < a.length → (hGet a 0).1 ≤ (hGet a i).1 := by
  intro i
  induction i using Nat.strong_induction_on with
  | _ i ih =>
      intro hi
      rcases Nat.eq_zero_or_pos i with rfl | hpos
      · exact le_refl _
      · have hp : (i - 1) / 2 < i := by omega
        exact le_trans (ih _ hp (by omega)) (h i hi hpos)

theorem root_min (a : List RankEntry) (h : isHeap a) (y : RankEntry)
    (hy : y ∈ a) : (hGet a 0).1 ≤ y.1 := by
  obtain ⟨i, hi, hyi⟩ := List.mem_iff_getElem.mp hy
  rw [← hyi, ← hGet_eq a i hi]
  exact root_min_idx a h i hi

/-- Heap except possibly on the edge into position `i` from its parent;
positions below `i` are still bounded by `i`'s parent. -/
def upInv (a : List RankEntry) (i : Nat) : Prop :=
  (∀ j, j < a.length → 0 < j → j ≠ i →
    (hGet a ((j - 1) / 2)).1 ≤ (hGet a j).1) ∧
  (0 < i → ∀ j, j < a.length → (j - 1) / 2 = i →
    (hGet a ((i - 1) / 2)).1 ≤ (hGet a j).1)

theorem siftUpGo_isHeap (fuel : Nat) :
    ∀ a i, i < a.length → i + 1 ≤ fuel → upInv a i →
      isHeap (siftUpGo fuel a i) := by
  induction fuel with
  | zero => intro a i _ hf; omega
  | succ f ih =>
      intro a i hi hf hinv
      rw [siftUpGo]
      by_cases hi0 : i = 0
      · rw [if_pos hi0]
        subst hi0
        intro j hj hj0
        exact hinv.1 j hj hj0 (by omega)
      · rw [if_neg hi0]
        by_cases hlt : (hGet a i).1 < (hGet a ((i - 1) / 2)).1
        · rw [if_pos hlt]
          have hp : (i - 1) / 2 < i := by omega
          have hpl : (i - 1) / 2 < a.length := by omega
          have hb_p : hGet (hSwap a ((i - 1) / 2) i) ((i - 1) / 2) = hGet a i :=
            hGet_hSwap_i a ((i - 1) / 2) i hpl (by omega)
          have hb_i : hGet (hSwap a ((i - 1) / 2) i) i = hGet a ((i - 1) / 2) :=
            hGet_hSwap_j a ((i - 1) / 2) i hi
          have hb_o : ∀ k, k ≠ (i - 1) / 2 → k ≠ i →
              hGet (hSwap a ((i - 1) / 2) i) k = hGet a k :=
            fun k h1 h2 => hGet_hSwap_other a ((i - 1) / 2) i k h1 h2
          apply ih
          · rw [hSwap_length]; exact hpl
          · omega
          · constructor
            · intro j hj hj0 hjp
              rw [hSwap_length] at hj
              by_cases hji : j = i
              · subst hji
                rw [hb_p, hb_i]
                exact le_of_lt hlt
              · by_cases hci : (j - 1) / 2 = i
                · rw [hci, hb_i, hb_o j hjp hji]
                  exact hinv.2 (by omega) j hj hci
                · by_cases hcp : (j - 1) / 2 = (i - 1) / 2
                  · rw [hcp, hb_p, hb_o j hjp hji]
                    have h2 := hinv.1 j hj hj0 hji
                    rw [hcp] at h2
                    exact le_trans (le_of_lt hlt) h2
                  · rw [hb_o _ hcp hci, hb_o j hjp hji]
                    exact hinv.1 j hj hj0 hji
            · intro hp0 j hj hjp
              rw [hSwap_length] at hj
              have hg1 : ((i - 1) / 2 - 1) / 2 ≠ (i - 1) / 2 := by omega
              have hg2 : ((i - 1) / 2 - 1) / 2 ≠ i := by omega
              rw [hb_o _ hg1 hg2]
              have hgp := hinv.1 ((i - 1) / 2) hpl hp0 (by omega)
              by_cases hji : j = i
              · subst hji
                rw [hb_i]
                exact hgp
              · have hjne : j ≠ (i - 1) / 2 := by omega
                rw [hb_o j hjne hji]
                have h2 := hinv.1 j hj (by omega) hji
                rw [hjp] at h2
                exact le_trans hgp h2
        · rw [if_neg hlt]
          intro j hj hj0
          by_cases hji : j = i
          · subst hji
            exact le_of_not_lt hlt
          · exact hinv.1 j hj hj0 hji

/-- Heap except possibly on the edges out of position `i` to its children;
`i`'s children are still bounded by `i`'s parent. -/
def downInv (a : List RankEntry) (i : Nat) : Prop :=
  (∀ j, j < a.length → 0 < j → (j - 1) / 2 ≠ i →
    (hGet a ((j - 1) / 2)).1 ≤ (hGet a j).1) ∧
  (0 < i → ∀ j, j < a.length → (j - 1) / 2 = i →
    (hGet a ((i - 1) / 2)).1 ≤ (hGet a j).1)

theorem siftDownGo_isHeap (fuel : Nat) :
    ∀ a i, a.length ≤ fuel + i → downInv a i →
      isHeap (siftDownGo fuel a i) := by
  induction fuel with
  | zero =>
      intro a i hf hinv
      rw [show siftDownGo 0 a i = a from rfl]
      intro j hj hj0
      by_cases hpji : (j - 1) / 2 = i
      · omega
      · exact hinv.1 j hj hj0 hpji
  | succ f ih =>
      intro a i hf hinv
      rw [siftDownGo]
      by_cases hl : 2 * i + 1 < a.length
      · rw [if_pos hl]
        have hib : i < a.length := by omega
        have hcb : childSel a i < a.length := childSel_lt a i hl
        have hcp : (childSel a i - 1) / 2 = i := childSel_parent a i
        have hcg : i < childSel a i := childSel_gt a i
        by_cases hlt : (hGet a (childSel a i)).1 < (hGet a i).1
        · rw [if_pos hlt]
          have hb_i : hGet (hSwap a i (childSel a i)) i = hGet a (childSel a i) :=
            hGet_hSwap_i a i (childSel a i) hib (ne_of_gt hcg)
          have hb_c : hGet (hSwap a i (childSel a i)) (childSel a i) = hGet a i :=
            hGet_hSwap_j a i (childSel a i) hcb
          have hb_o : ∀ k, k ≠ i → k ≠ childSel a i →
              hGet (hSwap a i (childSel a i)) k = hGet a k :=
            fun k h1 h2 => hGet_hSwap_other a i (childSel a i) k h1 h2
          apply ih
          · rw [hSwap_length]; omega
          · constructor
            · intro j hj hj0 hjc
              rw [hSwap_length] at hj
              by_cases hji : j = i
              · rw [hji] at hj hj0 ⊢
                have hp1 : (i - 1) / 2 ≠ i := by omega
                have hp2 : (i - 1) / 2 ≠ childSel a i := by omega
                rw [hb_o _ hp1 hp2, hb_i]
                exact hinv.2 hj0 (childSel a i) hcb hcp
              · by_cases hjc2 : j = childSel a i
                · subst hjc2
                  rw [hcp, hb_i, hb_c]
                  exact le_of_lt hlt
                · by_cases hpji : (j - 1) / 2 = i
                  · rw [hpji, hb_i, hb_o j hji hjc2]
                    have : j = 2 * i + 1 ∨ j = 2 * i + 2 := by omega
                    rcases this with rfl | rfl
                    · exact childSel_le_left a i
                    · exact childSel_le_right a i (by omega)
                  · have hpjc : (j - 1) / 2 ≠ childSel a i := hjc
                    rw [hb_o _ hpji hpjc, hb_o j hji hjc2]
                    exact hinv.1 j hj hj0 hpji
            · intro h0c j hj hjc
              rw [hSwap_length] at hj
              rw [hcp, hb_i]
              have hji : j ≠ i := by omega
              have hjc2 : j ≠ childSel a i := by omega
              rw [hb_o j hji hjc2]
              have hpji : (j - 1) / 2 ≠ i := by omega
              have h2 := hinv.1 j hj (by omega) hpji
              rw [hjc] at h2
              exact h2
        · rw [if_neg hlt]
          intro j hj hj0
          by_cases hpji : (j - 1) / 2 = i
          · rw [hpji]
            have hile : (hGet a i).1 ≤ (hGet a (childSel a i)).1 :=
              le_of_not_lt hlt
            have : j = 2 * i + 1 ∨ j = 2 * i + 2 := by omega
            rcases this with rfl | rfl
            · exact le_trans hile (childSel_le_left a i)
            · exact le_trans hile (childSel_le_right a i (by omega))
          · exact hinv.1 j hj hj0 hpji
      · rw [if_neg hl]
        intro j hj hj0
        by_cases hpji : (j - 1) / 2 = i
        · omega
        · exact hinv.1 j hj hj0 hpji

theorem isHeap_nil : isHeap [] := by
  intro i hi
  simp at hi

theorem hGet_append (a : List RankEntry) (v : RankEntry) (j : Nat)
    (hj : j < a.length) : hGet (a ++ [v]) j = hGet a j := by
  rw [hGet, hGet, List.getD_eq_getElem?_getD, List.getD_eq_getElem?_getD,
    List.getElem?_append_left hj]

theorem heapPush_isHeap (a : List RankEntry) (v : RankEntry) (h : isHeap a) :
    isHeap (heapPush a v) := by
  rw [heapPush]
  apply siftUpGo_isHeap
  · simp
  · simp
  · constructor
    · intro j hj hj0 hjne
      rw [List.length_append, List.length_singleton] at hj
      have hjl : j < a.length := by omega
      have hpl : (j - 1) / 2 < a.length := by omega
      rw [hGet_append a v j hjl, hGet_append a v _ hpl]
      exact h j hjl hj0
    · intro h0 j hj hjp
      rw [List.length_append, List.length_singleton] at hj
      omega

theorem hGet_set0_ne (a : List RankEntry) (u : RankEntry) (j : Nat)
    (hj : j ≠ 0) : hGet (a.set 0 u) j = hGet a j := by
  rw [hGet, hGet, List.getD_eq_getElem?_getD, List.getD_eq_getElem?_getD,
    List.getElem?_set_ne (fun h => hj h.symm)]

theorem hGet_take (a : List RankEntry) (n j : Nat) (hj : j < n) :
    hGet (a.take n) j = hGet a j := by
  rw [hGet, hGet, List.getD_eq_getElem?_getD, List.getD_eq_getElem?_getD,
    List.getElem?_take, if_pos hj]

theorem heapPop_isHeap (a : List RankEntry) (x : RankEntry)
    (rest : List RankEntry) (h : isHeap a) (hp : heapPop a = some (x, rest)) :
    isHeap rest := by
  rw [heapPop] at hp
  by_cases h0 : a.length = 0
  · rw [if_pos h0] at hp; cases hp
  · rw [if_neg h0] at hp
    injection hp with hp1
    injection hp1 with hx hrest
    rw [← hrest]
    apply siftDownGo_isHeap
    · rw [List.length_take, List.length_set]; omega
    · constructor
      · intro j hj hj0 hjp
        rw [List.length_take, List.length_set] at hj
        have hjl : j < a.length - 1 := by omega
        have hpl : (j - 1) / 2 < a.length - 1 := by omega
        rw [hGet_take _ _ j hjl, hGet_take _ _ _ hpl,
          hGet_set0_ne a _ j (by omega), hGet_set0_ne a _ _ hjp]
        exact h j (by omega) hj0
      · intro h0c
        exact (Nat.lt_irrefl 0 h0c).elim

theorem heapPop_min (a : List RankEntry) (x : RankEntry)
    (rest : List RankEntry) (h : isHeap a) (hp : heapPop a = some (x, rest)) :
    ∀ y ∈ rest, x.1 ≤ y.1 := by
  intro y hy
  have hmem := (heapPop_mem a x rest hp).2 y hy
  rw [heapPop] at hp
  by_cases h0 : a.length = 0
  · rw [if_pos h0] at hp; cases hp
  · rw [if_neg h0] at hp
    injection hp with hp1
    injection hp1 with hx hrest
    rw [← hx]
    exact root_min a h y hmem

theorem heapDrainGo_sorted (fuel : Nat) :
    ∀ a, a.length ≤ fuel → isHeap a →
      List.Sorted (fun u v : RankEntry => u.1 ≤ v.1) (heapDrainGo fuel a) ∧
      ∀ x ∈ heapDrainGo fuel a, x ∈ a := by
  induction fuel with
  | zero =>
      intro a _ _
      exact ⟨List.sorted_nil, fun x hx => absurd hx (List.not_mem_nil x)⟩
  | succ f ih =>
      intro a hf hheap
      rw [heapDrainGo]
      cases hp : heapPop a with
      | none =>
          exact ⟨List.sorted_nil, fun x hx => absurd hx (List.not_mem_nil x)⟩
      | some pr =>
          obtain ⟨x, rest⟩ := pr
          have hlen := heapPop_length a x rest hp
          have hh := heapPop_isHeap a x rest hheap hp
          have hmm := heapPop_mem a x rest hp
          have hrec := ih rest (by omega) hh
          constructor
          · rw [List.sorted_cons]
            exact ⟨fun b hb => heapPop_min a x rest hheap hp b (hrec.2 b hb),
              hrec.1⟩
          · intro z hz
            rcases List.mem_cons.mp hz with rfl | hz2
            · exact hmm.1
            · exact hmm.2 z (hrec.2 z hz2)

theorem heapDrain_sorted (a : List RankEntry) (h : isHeap a) :
    List.Sorted (fun u v : RankEntry => u.1 ≤ v.1) (heapDrain a) ∧
      ∀ x ∈ heapDrain a, x ∈ a :=
  heapDrainGo_sorted a.length a (le_refl _) h

theorem simFold_inv (input_op : Symbol) (kvs : List (Symbol × List OpRef)) :
    ∀ h0 : List RankEntry, isHeap h0 →
      isHeap (kvs.foldl
        (fun h kv =>
          if ComputeEditDistance input_op kv.1 MAX_EDIT_DIST ≤ MAX_EDIT_DIST then
            heapPush h (ComputeEditDistance input_op kv.1 MAX_EDIT_DIST, kv.1)
          else h) h0) ∧
      ∀ x ∈ kvs.foldl
        (fun h kv =>
          if ComputeEditDistance input_op kv.1 MAX_EDIT_DIST ≤ MAX_EDIT_DIST then
            heapPush h (ComputeEditDistance input_op kv.1 MAX_EDIT_DIST, kv.1)
          else h) h0,
        x ∈ h0 ∨
          (x.2 ∈ kvs.map Prod.fst ∧
            x.1 = ComputeEditDistance input_op x.2 MAX_EDIT_DIST ∧
            x.1 ≤ MAX_EDIT_DIST) := by
  induction kvs with
  | nil => exact fun h0 hh => ⟨hh, fun x hx => Or.inl hx⟩
  | cons kv rest ih =>
      intro h0 hh
      rw [List.foldl_cons]
      by_cases hd : ComputeEditDistance input_op kv.1 MAX_EDIT_DIST ≤ MAX_EDIT_DIST
      · rw [if_pos hd]
        have ihh := ih
          (heapPush h0 (ComputeEditDistance input_op kv.1 MAX_EDIT_DIST, kv.1))
          (heapPush_isHeap h0 _ hh)
        refine ⟨ihh.1, fun x hx => ?_⟩
        rcases ihh.2 x hx with hin | hnew
        · rcases heapPush_mem h0 _ x hin with h1 | rfl
          · exact Or.inl h1
          · exact Or.inr ⟨by simp, rfl, hd⟩
        · exact Or.inr
            ⟨by rw [List.map_cons]; exact List.mem_cons_of_mem _ hnew.1,
              hnew.2.1, hnew.2.2⟩
      · rw [if_neg hd]
        have ihh := ih h0 hh
        refine ⟨ihh.1, fun x hx => ?_⟩
        rcases ihh.2 x hx with h1 | hnew
        · exact Or.inl h1
        · exact Or.inr
            ⟨by rw [List.map_cons]; exact List.mem_cons_of_mem _ hnew.1,
              hnew.2⟩

theorem simFold_none (input_op : Symbol) (kvs : List (Symbol × List OpRef))
    (hn : ∀ kv ∈ kvs,
      ¬ ComputeEditDistance input_op kv.1 MAX_EDIT_DIST ≤ MAX_EDIT_DIST) :
    kvs.foldl
      (fun h kv =>
        if ComputeEditDistance input_op kv.1 MAX_EDIT_DIST ≤ MAX_EDIT_DIST then
          heapPush h (ComputeEditDistance input_op kv.1 MAX_EDIT_DIST, kv.1)
        else h) [] = [] := by
  induction kvs with
  | nil => rfl
  | cons kv rest ih =>
      rw [List.foldl_cons, if_neg (hn kv (List.mem_cons_self kv rest))]
      exact ih (fun k hk => hn k (List.mem_cons_of_mem kv hk))

/-- Soundness of the fuzzy search, independent of the heap's tie order:
`findSimilarOperators` returns only currently registered symbols whose
bounded edit distance from the target is within the cap of 2, returns the
empty sequence when no registered symbol is within the cap, and orders the
result by ascending edit distance.  (Each conclusion follows from the heap
property alone, so it holds for any conforming `std::priority_queue`.) -/
theorem findSimilarOperators_within_cap_sorted (st : OperatorRegistry)
    (input_op : Symbol) :
    (∀ sym ∈ (st.findSimilarOperators input_op).1,
        sym ∈ st.registerPendingOperators.operators.map Prod.fst ∧
        ComputeEditDistance input_op sym MAX_EDIT_DIST ≤ MAX_EDIT_DIST) ∧
    ((∀ kv ∈ st.registerPendingOperators.operators,
        ¬ ComputeEditDistance input_op kv.1 MAX_EDIT_DIST ≤ MAX_EDIT_DIST) →
      (st.findSimilarOperators input_op).1 = []) ∧
    List.Sorted (fun m n => m ≤ n)
      (((st.findSimilarOperators input_op).1).map
        (fun sym => ComputeEditDistance input_op sym MAX_EDIT_DIST)) := by
  have hres : (st.findSimilarOperators input_op).1
      = (heapDrain (st.registerPendingOperators.operators.foldl
          (fun h kv =>
            if ComputeEditDistance input_op kv.1 MAX_EDIT_DIST
                ≤ MAX_EDIT_DIST then
              heapPush h (ComputeEditDistance input_op kv.1 MAX_EDIT_DIST, kv.1)
            else h) [])).map (fun e => e.2) := rfl
  have hfold := simFold_inv input_op st.registerPendingOperators.operators []
    isHeap_nil
  have hdrain := heapDrain_sorted _ hfold.1
  refine ⟨?_, ?_, ?_⟩
  · intro sym hsym
    rw [hres] at hsym
    obtain ⟨x, hxd, rfl⟩ := List.mem_map.mp hsym
    rcases hfold.2 x (hdrain.2 x hxd) with h1 | h2
    · exact absurd h1 (List.not_mem_nil x)
    · exact ⟨h2.1, by rw [← h2.2.1]; exact h2.2.2⟩
  · intro hn
    rw [hres, simFold_none input_op _ hn]
    rfl
  · rw [hres, List.map_map]
    have heq : (heapDrain (st.registerPendingOperators.operators.foldl
          (fun h kv =>
            if ComputeEditDistance input_op kv.1 MAX_EDIT_DIST
                ≤ MAX_EDIT_DIST then
              heapPush h (ComputeEditDistance input_op kv.1 MAX_EDIT_DIST, kv.1)
            else h) [])).map
          ((fun sym => ComputeEditDistance input_op sym MAX_EDIT_DIST)
            ∘ (fun e : RankEntry => e.2))
        = (heapDrain (st.registerPendingOperators.operators.foldl
          (fun h kv =>
            if ComputeEditDistance input_op kv.1 MAX_EDIT_DIST
                ≤ MAX_EDIT_DIST then
              heapPush h (ComputeEditDistance input_op kv.1 MAX_EDIT_DIST, kv.1)
            else h) [])).map Prod.fst := by
      apply List.map_congr_left
      intro x hxd
      rcases hfold.2 x (hdrain.2 x hxd) with h1 | h2
      · exact absurd h1 (List.not_mem_nil x)
      · exact h2.2.1.symm
    rw [heq]
    exact List.Pairwise.map Prod.fst (fun a b hab => hab) hdrain.1

/-- Concrete instance: `aten::add` is over distance 2 from `zzz`, so the
fuzzy search over the flushed single-operator registry returns nothing. -/
theorem findSimilarOperators_within_cap_sorted_witness :
    (addFlushed.findSimilarOperators "zzz").1 = [] :=
  (findSimilarOperators_within_cap_sorted addFlushed "zzz").2.1 (by decide)

/-! ### Read operations commute (C8) -/

/-- One read-side operation of the registry. -/
inductive ReadOp where
  | bySym (s : Symbol)
  | byLit (addr : Addr)
  | similar (s : Symbol)
  | allOps
deriving DecidableEq, Repr

/-- The value a read operation returns to its caller. -/
inductive ReadAnswer where
  | ops (l : List OpRef)
  | sims (l : List Symbol)
  | lit (r : Except String OpRef)

/-- Perform a read operation, returning its answer and the registry state it
leaves behind. -/
def runRead (parse : String → FunctionSchema) (mem : Addr → String) :
    ReadOp → OperatorRegistry → ReadAnswer × OperatorRegistry
  | ReadOp.bySym s, st =>
      (ReadAnswer.ops (st.getOperators s).1, (st.getOperators s).2)
  | ReadOp.byLit a, st =>
      (ReadAnswer.lit (OperatorRegistry.lookupByLiteral parse mem st a).1,
       (OperatorRegistry.lookupByLiteral parse mem st a).2.1)
  | ReadOp.similar s, st =>
      (ReadAnswer.sims (st.findSimilarOperators s).1,
       (st.findSimilarOperators s).2)
  | ReadOp.allOps, st =>
      (ReadAnswer.ops st.getAllOperators.1, st.getAllOperators.2)

/-- The literal-lookup answer as a function of the flushed canonical index
and the pointer cache. -/
def litAnswer (parse : String → FunctionSchema) (mem : Addr → String)
    (sig : List (String × OpRef)) (cache : List (Addr × OpRef)) (a : Addr) :
    Except String OpRef :=
  match addrFind cache a with
  | some op => Except.ok op
  | none =>
      match assocFind sig (canonicalSchemaString (parse (mem a))) with
      | some op => Except.ok op
      | none => Except.error (couldNotFindMsg (mem a))

theorem lookup_answer (parse : String → FunctionSchema) (mem : Addr → String)
    (st : OperatorRegistry) (a : Addr) :
    (OperatorRegistry.lookupByLiteral parse mem st a).1
      = litAnswer parse mem st.registerPendingOperators.operators_by_sig
          st.operators_by_sig_literal a := by
  rw [OperatorRegistry.lookupByLiteral, litAnswer,
    flush_operators_by_sig_literal]
  cases e : addrFind st.operators_by_sig_literal a with
  | some op => rfl
  | none =>
      cases f : assocFind st.registerPendingOperators.operators_by_sig
          (canonicalSchemaString (parse (mem a))) with
      | some op => rfl
      | none => rfl

theorem runRead_post (parse : String → FunctionSchema) (mem : Addr → String)
    (r : ReadOp) (st : OperatorRegistry) :
    (runRead parse mem r st).2.operators
        = st.registerPendingOperators.operators ∧
      (runRead parse mem r st).2.operators_by_sig
        = st.registerPendingOperators.operators_by_sig ∧
      (runRead parse mem r st).2.to_register = [] := by
  cases r with
  | bySym s => exact ⟨rfl, rfl, rfl⟩
  | similar s => exact ⟨rfl, rfl, rfl⟩
  | allOps => exact ⟨rfl, rfl, rfl⟩
  | byLit a =>
      simp only [runRead, OperatorRegistry.lookupByLiteral]
      rw [flush_operators_by_sig_literal]
      cases e : addrFind st.operators_by_sig_literal a with
      | some op => exact ⟨rfl, rfl, rfl⟩
      | none =>
          cases f : assocFind st.registerPendingOperators.operators_by_sig
              (canonicalSchemaString (parse (mem a))) with
          | some op => exact ⟨rfl, rfl, rfl⟩
          | none => exact ⟨rfl, rfl, rfl⟩

theorem runRead_flush_post (parse : String → FunctionSchema)
    (mem : Addr → String) (r : ReadOp) (st : OperatorRegistry) :
    (runRead parse mem r st).2.registerPendingOperators
      = (runRead parse mem r st).2 :=
  flush_of_drained _ (runRead_post parse mem r st).2.2

/-- The pointer cache a read leaves behind: unchanged, or extended by one
coherent entry. -/
theorem runRead_cache (parse : String → FunctionSchema) (mem : Addr → String)
    (r : ReadOp) (st : OperatorRegistry) :
    (runRead parse mem r st).2.operators_by_sig_literal
        = st.operators_by_sig_literal ∨
      ∃ a0 op0,
        addrFind st.operators_by_sig_literal a0 = none ∧
        assocFind st.registerPendingOperators.operators_by_sig
          (canonicalSchemaString (parse (mem a0))) = some op0 ∧
        (runRead parse mem r st).2.operators_by_sig_literal
          = st.operators_by_sig_literal ++ [(a0, op0)] := by
  cases r with
  | bySym s => exact Or.inl rfl
  | similar s => exact Or.inl rfl
  | allOps => exact Or.inl rfl
  | byLit a =>
      simp only [runRead, OperatorRegistry.lookupByLiteral]
      rw [flush_operators_by_sig_literal]
      cases e : addrFind st.operators_by_sig_literal a with
      | some op => exact Or.inl rfl
      | none =>
          cases f : assocFind st.registerPendingOperators.operators_by_sig
              (canonicalSchemaString (parse (mem a))) with
          | some op => exact Or.inr ⟨a, op, e, f, rfl⟩
          | none => exact Or.inl rfl

theorem litAnswer_cache_extend (parse : String → FunctionSchema)
    (mem : Addr → String) (sig : List (String × OpRef))
    (cache : List (Addr × OpRef)) (a a0 : Addr) (op0 : OpRef)
    (hmiss : addrFind cache a0 = none)
    (hop0 : assocFind sig (canonicalSchemaString (parse (mem a0))) = some op0) :
    litAnswer parse mem sig (cache ++ [(a0, op0)]) a
      = litAnswer parse mem sig cache a := by
  rw [litAnswer, litAnswer, addrFind_append]
  cases e : addrFind cache a with
  | some v => rfl
  | none =>
      by_cases ha : a = a0
      · subst ha
        rw [if_pos rfl, hop0]
      · rw [if_neg ha]

/-- The answer a read returns is unaffected by another read having run
first. -/
theorem runRead_answer_stable (parse : String → FunctionSchema)
    (mem : Addr → String) (st : OperatorRegistry) (r1 r2 : ReadOp) :
    (runRead parse mem r2 (runRead parse mem r1 st).2).1
      = (runRead parse mem r2 st).1 := by
  have hops := (runRead_post parse mem r1 st).1
  have hsig := (runRead_post parse mem r1 st).2.1
  have hfl := runRead_flush_post parse mem r1 st
  cases r2 with
  | bySym s =>
      show ReadAnswer.ops ((runRead parse mem r1 st).2.getOperators s).1
          = ReadAnswer.ops (st.getOperators s).1
      rw [show ((runRead parse mem r1 st).2.getOperators s).1
          = (assocFind
              (runRead parse mem r1 st).2.registerPendingOperators.operators
              s).getD []
          from rfl,
        show (st.getOperators s).1
          = (assocFind st.registerPendingOperators.operators s).getD []
          from rfl,
        hfl, hops]
  | allOps =>
      show ReadAnswer.ops (runRead parse mem r1 st).2.getAllOperators.1
          = ReadAnswer.ops st.getAllOperators.1
      rw [show (runRead parse mem r1 st).2.getAllOperators.1
          = (runRead parse mem r1 st).2.registerPendingOperators.operators.foldl
              (fun acc kv => acc ++ kv.2) []
          from rfl,
        show st.getAllOperators.1
          = st.registerPendingOperators.operators.foldl
              (fun acc kv => acc ++ kv.2) []
          from rfl,
        hfl, hops]
  | similar s =>
      show ReadAnswer.sims
            ((runRead parse mem r1 st).2.findSimilarOperators s).1
          = ReadAnswer.sims (st.findSimilarOperators s).1
      rw [show ((runRead parse mem r1 st).2.findSimilarOperators s).1
          = (heapDrain
              ((runRead parse mem r1 st).2.registerPendingOperators.operators.foldl
                (fun h kv =>
                  if ComputeEditDistance s kv.1 MAX_EDIT_DIST
                      ≤ MAX_EDIT_DIST then
                    heapPush h
                      (ComputeEditDistance s kv.1 MAX_EDIT_DIST, kv.1)
                  else h) [])).map (fun e => e.2)
          from rfl,
        show (st.findSimilarOperators s).1
          = (heapDrain
              (st.registerPendingOperators.operators.foldl
                (fun h kv =>
                  if ComputeEditDistance s kv.1 MAX_EDIT_DIST
                      ≤ MAX_EDIT_DIST then
                    heapPush h
                      (ComputeEditDistance s kv.1 MAX_EDIT_DIST, kv.1)
                  else h) [])).map (fun e => e.2)
          from rfl,
        hfl, hops]
  | byLit a =>
      show ReadAnswer.lit
            (OperatorRegistry.lookupByLiteral parse mem
              (runRead parse mem r1 st).2 a).1
          = ReadAnswer.lit (OperatorRegistry.lookupByLiteral parse mem st a).1
      rw [lookup_answer, lookup_answer, hfl, hsig]
      rcases runRead_cache parse mem r1 st with hc | ⟨a0, op0, hm, ho, hc⟩
      · rw [hc]
      · rw [hc, litAnswer_cache_extend parse mem _ _ a a0 op0 hm ho]

/-- C8 (confirmed): every read operation drains the pending queue before
answering (its post-state has an empty queue), and for any two read
operations run in either order the by-symbol and canonical-signature index
contents agree and each read's answer is the same as if it had run alone. -/
theorem reads_commute (parse : String → FunctionSchema) (mem : Addr → String)
    (st : OperatorRegistry) (r1 r2 : ReadOp) :
    (runRead parse mem r1 st).2.to_register = [] ∧
    (runRead parse mem r2 (runRead parse mem r1 st).2).2.operators
      = (runRead parse mem r1 (runRead parse mem r2 st).2).2.operators ∧
    (runRead parse mem r2 (runRead parse mem r1 st).2).2.operators_by_sig
      = (runRead parse mem r1 (runRead parse mem r2 st).2).2.operators_by_sig ∧
    (runRead parse mem r2 (runRead parse mem r1 st).2).1
      = (runRead parse mem r2 st).1 ∧
    (runRead parse mem r1 (runRead parse mem r2 st).2).1
      = (runRead parse mem r1 st).1 := by
  refine ⟨(runRead_post parse mem r1 st).2.2, ?_, ?_,
    runRead_answer_stable parse mem st r1 r2,
    runRead_answer_stable parse mem st r2 r1⟩
  · rw [(runRead_post parse mem r2 _).1, runRead_flush_post,
      (runRead_post parse mem r1 st).1,
      (runRead_post parse mem r1 _).1, runRead_flush_post,
      (runRead_post parse mem r2 st).1]
  · rw [(runRead_post parse mem r2 _).2.1, runRead_flush_post,
      (runRead_post parse mem r1 st).2.1,
      (runRead_post parse mem r1 _).2.1, runRead_flush_post,
      (runRead_post parse mem r2 st).2.1]

end TorchJit
